import Mathlib

set_option maxRecDepth 8000

/-!
Verification of the DP-enhanced LSB steganography engine.

The development shallowly embeds the core of the repository:

* `utils.py` : `string_to_bits`, `bits_to_string`, `get_pixel_indices`
  (the seeded shuffle of the flat channel-index domain) and the
  flat-index/(row, col, channel) conversion arithmetic.
* `core_engine.py` : `embed` and `extract`.  The two sources of randomness
  of `embed` (the Laplace noise sample and the per-slot decoy bits) and the
  two opaque library primitives (the SHA-256 password hash and the seeded
  numpy permutation) are passed in as explicit parameters; the permutation
  parameter is constrained, where a proof needs it, by the hypothesis that
  it is a permutation of `List.range T`, which is the contract the library gives
  for `rng.shuffle` over `arange(T)`.
* `steganalysis.py` : `chi_square_attack` / `multi_channel_analysis`
  (with the scipy p-value left as an abstract function of the chi-square
  statistic), `calculate_visual_difference` and
  `calculate_epsilon_visibility`.

Images are flattened row-major pixel buffers (`List Nat`, one entry per
colour channel, 8-bit values), exactly the layout the numpy code indexes.
-/

/-- Python `int(x)` truncation of a real toward zero, on rationals:
floor for nonnegative inputs, ceiling for negative ones.  Used for the
`int(noise)` truncation of the Laplace sample in `embed`. -/
def truncInt (q : ℚ) : Int := if q < 0 then ⌈q⌉ else ⌊q⌋

/-- Most-significant-bit-first binary digits of `n` (empty for 0), with a
structural fuel argument so the definition reduces in the kernel; the fuel
is always instantiated with `n` itself, which bounds the recursion depth. -/
def binDigitsAux : Nat → Nat → List Nat
  | _, 0 => []
  | 0, _ + 1 => []
  | fuel + 1, n + 1 => binDigitsAux fuel ((n + 1) / 2) ++ [(n + 1) % 2]

/-- Python format(n, "b"): the binary digits of `n`, MSB first, with the
single digit `0` for `n = 0`. -/
def natToBin (n : Nat) : List Nat := if n = 0 then [0] else binDigitsAux n n

/-- Python format(c, "08b") as used by `string_to_bits`: the binary digits
of the character code `c`, zero-padded on the left to at least 8 digits
(codes at or above 256 yield more than 8 digits, exactly as in the source). -/
def charToBits (c : Nat) : List Nat :=
  List.replicate (8 - (natToBin c).length) 0 ++ natToBin c

/-- `utils.string_to_bits`: a message (a list of character codes) becomes
the concatenation of the per-character bit groups. -/
def string_to_bits (text : List Nat) : List Nat :=
  (text.map charToBits).flatten

/-- Python `int(binary_str, 2)` for a digit list: MSB-first binary value. -/
def bitsVal (bits : List Nat) : Nat := bits.foldl (fun acc b => 2 * acc + b) 0

/-- Recursion core of `bits_to_string`: consume the bit list in chunks of 8
(`bits[i:i+8]`), a trailing chunk possibly shorter; fuel makes the
recursion structural (fuel is instantiated with the list length). -/
def bitsToStringAux : Nat → List Nat → List Nat
  | _, [] => []
  | 0, _ :: _ => []
  | fuel + 1, b :: rest => bitsVal (b :: rest.take 7) :: bitsToStringAux fuel (rest.drop 7)

/-- `utils.bits_to_string`: groups of (up to) 8 bits each become one
character code by MSB-first binary value.  The Python source never raises
on a length that is not a multiple of 8: the final short group is decoded
like any other. -/
def bits_to_string (bits : List Nat) : List Nat :=
  bitsToStringAux bits.length bits

/-- The error message text of `utils.get_pixel_indices`. -/
def gpiErrorMsg (num_channels total_channels : Nat) : String :=
  "Requested " ++ toString num_channels ++ " channels but image only has "
    ++ toString total_channels

/-- `utils.get_pixel_indices`: shuffle the whole flat channel-index domain
`[0, T)` with the seeded generator, then return the first `num_channels`
entries.  `shuffle seed T` stands for the list `rng.shuffle` produces from
`arange(T)` under `default_rng(seed)`; theorems that need it assume it is a
permutation of `List.range T`. -/
def get_pixel_indices (shuffle : Nat → Nat → List Nat)
    (image_shape : Nat × Nat × Nat) (num_channels : Nat) (seed : Nat) :
    Except String (List Nat) :=
  if num_channels > image_shape.1 * image_shape.2.1 * image_shape.2.2 then
    .error (gpiErrorMsg num_channels (image_shape.1 * image_shape.2.1 * image_shape.2.2))
  else
    .ok ((shuffle seed (image_shape.1 * image_shape.2.1 * image_shape.2.2)).take num_channels)

/-- The `row = idx // (width*channels); col = (idx % (width*channels)) // channels;
channel = idx % channels` decomposition of `embed`/`extract`, recomposed to
the flat row-major position `row * (width*channels) + col * channels + channel`
at which the numpy array access `stego_array[row, col, channel]` lands. -/
def flatPos (width channels idx : Nat) : Nat :=
  idx / (width * channels) * (width * channels)
    + idx % (width * channels) / channels * channels
    + idx % channels

/-- The bit the embedding loop writes at loop index `i`: the message bit
while `i < len(message_bits)`, a random decoy bit afterwards. -/
def bitFor (message_bits : List Nat) (decoys : Nat → Bool) (i : Nat) : Nat :=
  if h : i < message_bits.length then message_bits.get ⟨i, h⟩ else (decoys i).toNat

/-- The embedding loop of `core_engine.embed`: walk the selected channel
indices in order; at each one clear the LSB of the stored value
(`pixel_value & 0xFE`) and OR in the bit to embed. -/
def embedLoop (message_bits : List Nat) (decoys : Nat → Bool) (width : Nat) :
    Nat → List Nat → List Nat → List Nat
  | _, arr, [] => arr
  | i, arr, idx :: rest =>
    embedLoop message_bits decoys width (i + 1)
      (arr.set (flatPos width 3 idx)
        ((arr.getD (flatPos width 3 idx) 0 &&& 254) ||| bitFor message_bits decoys i))
      rest

/-- The statistics record `core_engine.embed` returns (the `save_path`
entry, pure file plumbing, is left out). -/
structure EmbedStats where
  message_length_bits : Nat
  message_length_chars : Nat
  noisy_count : Int
  noise_added : Int
  total_pixels_modified : Nat
  decoy_pixels : Int
  epsilon : ℚ
  laplace_scale : ℚ
  total_capacity : Nat
  capacity_used_percent : ℚ
  image_dimensions : String
  deriving Repr, DecidableEq

/-- The error message text of the capacity check in `core_engine.embed`. -/
def embedCapacityMsg (true_count total_capacity : Nat) : String :=
  "Message too large! Need " ++ toString true_count
    ++ " bits but image only has " ++ toString total_capacity
    ++ " pixels. Maximum message length: " ++ toString (total_capacity / 8)
    ++ " characters."

/-- The final slot count of `core_engine.embed`:
`total_channels_to_modify = min(max(true_count, true_count + int(noise)), total_capacity)`,
the floor-and-clip policy applied to the truncated Laplace sample. -/
def totalToModify (true_count : Nat) (η : ℚ) (total_capacity : Nat) : Nat :=
  Int.toNat (min (max (true_count : Int) ((true_count : Int) + truncInt η))
    (total_capacity : Int))

/-- The statistics dict `core_engine.embed` builds and returns. -/
def embedStats (true_count chars : Nat) (η : ℚ) (total_channels_to_modify : Nat)
    (ε : ℚ) (total_capacity height width : Nat) : EmbedStats :=
  { message_length_bits := true_count
    message_length_chars := chars
    noisy_count := (true_count : Int) + truncInt η
    noise_added := truncInt η
    total_pixels_modified := total_channels_to_modify
    decoy_pixels := (total_channels_to_modify : Int) - (true_count : Int)
    epsilon := max (1 / 100) ε
    laplace_scale := 8 / max (1 / 100) ε
    total_capacity := total_capacity
    capacity_used_percent :=
      ((total_channels_to_modify : ℚ) / (total_capacity : ℚ)) * 100
    image_dimensions := toString width ++ "x" ++ toString height }

/-- `core_engine.embed`.  `height`/`width` and the flat buffer `img` stand
for the decoded RGB array (`channels = 3` after `convert("RGB")`);
`η` is the Laplace noise sample `np.random.laplace(0, 8/ε)` drawn in this
call, `decoys i` the decoy bit `np.random.randint(0, 2)` drawn at loop
index `i`; `p2s` is `password_to_seed` and `shuffle` the seeded numpy
permutation, both opaque primitives passed in explicitly. -/
def embed (shuffle : Nat → Nat → List Nat) (p2s : String → Nat)
    (height width : Nat) (img : List Nat) (message : List Nat)
    (password : String) (ε η : ℚ) (decoys : Nat → Bool) :
    Except String (List Nat × EmbedStats) :=
  if (string_to_bits message).length > height * width * 3 then
    .error (embedCapacityMsg (string_to_bits message).length (height * width * 3))
  else
    (get_pixel_indices shuffle (height, width, 3)
        (totalToModify (string_to_bits message).length η (height * width * 3))
        (p2s password)).map
      (fun pixel_indices =>
        (embedLoop (string_to_bits message) decoys width 0 img pixel_indices,
          embedStats (string_to_bits message).length message.length η
            (totalToModify (string_to_bits message).length η (height * width * 3))
            ε (height * width * 3) height width))

/-- The error message text of the capacity check in `core_engine.extract`. -/
def extractCapacityMsg (message_length_bits total_capacity : Nat) : String :=
  "Invalid message length! Requested " ++ toString message_length_bits
    ++ " bits but image only has " ++ toString total_capacity ++ " pixels."

/-- `core_engine.extract`: regenerate the seed and the first
`message_length_bits` entries of the shuffled index list, read the LSB of
each addressed channel value in order, decode with `bits_to_string`.
No epsilon is needed. -/
def extract (shuffle : Nat → Nat → List Nat) (p2s : String → Nat)
    (height width : Nat) (img : List Nat) (password : String)
    (message_length_bits : Nat) : Except String (List Nat) :=
  if message_length_bits > height * width * 3 then
    .error (extractCapacityMsg message_length_bits (height * width * 3))
  else
    (get_pixel_indices shuffle (height, width, 3) message_length_bits
        (p2s password)).map
      (fun pixel_indices =>
        bits_to_string (pixel_indices.map
          (fun idx => img.getD (flatPos width 3 idx) 0 &&& 1)))

/-- The per-channel analysis record `steganalysis.chi_square_attack`
returns (the free-text `explanation`, pure presentation, is left out). -/
structure ChiResult where
  channel : String
  total_pixels : Nat
  lsb_0_count : Nat
  lsb_1_count : Nat
  lsb_0_percent : ℚ
  lsb_1_percent : ℚ
  deviation_from_50_50 : ℚ
  chi_square_statistic : ℚ
  p_value : ℚ
  verdict : String
  detection_confidence : String
  threshold_alpha : ℚ
  deriving Repr, DecidableEq

/-- The body of `steganalysis.chi_square_attack` after the channel data has
been selected: extract every LSB, count zeros and ones, form the chi-square
goodness-of-fit statistic against the uniform 50/50 expectation, and band
the verdict on the p-value.  `pv` stands for the scipy survival function
mapping the statistic to its p-value (one degree of freedom); every theorem
below holds for an arbitrary `pv`. -/
def chiCore (pv : ℚ → ℚ) (channel_data : List Nat) (channel_name : String) :
    ChiResult :=
  let lsbs := channel_data.map (fun v => v &&& 1)
  let count_0 := (lsbs.filter (fun b => b == 0)).length
  let count_1 := (lsbs.filter (fun b => b == 1)).length
  let total := lsbs.length
  let expected : ℚ := (total : ℚ) / 2
  let chi2_stat : ℚ :=
    ((count_0 : ℚ) - expected) ^ 2 / expected
      + ((count_1 : ℚ) - expected) ^ 2 / expected
  let p_value := pv chi2_stat
  let actual_percent_0 : ℚ := ((count_0 : ℚ) / (total : ℚ)) * 100
  let actual_percent_1 : ℚ := ((count_1 : ℚ) / (total : ℚ)) * 100
  { channel := channel_name
    total_pixels := total
    lsb_0_count := count_0
    lsb_1_count := count_1
    lsb_0_percent := actual_percent_0
    lsb_1_percent := actual_percent_1
    deviation_from_50_50 := |actual_percent_0 - 50|
    chi_square_statistic := chi2_stat
    p_value := p_value
    verdict := if p_value < 1 / 20 then ("NON-RANDOM LSB DISTRIBUTION")
      else ("RANDOM-LOOKING LSB DISTRIBUTION")
    detection_confidence := if p_value < 1 / 20 then ("High")
      else (if p_value < 1 / 5 then ("Low") else ("Very Low"))
    threshold_alpha := 1 / 20 }

/-- `steganalysis.chi_square_attack`: the analysed image is the list of its
RGB pixels in row-major order; the channel selector picks one colour plane
or the full row-major flattening, any other selector is a `ValueError`. -/
def chi_square_attack (pv : ℚ → ℚ) (img : List (Nat × Nat × Nat))
    (channel : String) : Except String ChiResult :=
  if channel.toLower = "red" then
    .ok (chiCore pv (img.map (fun p => p.1)) ("Red"))
  else if channel.toLower = "green" then
    .ok (chiCore pv (img.map (fun p => p.2.1)) ("Green"))
  else if channel.toLower = "blue" then
    .ok (chiCore pv (img.map (fun p => p.2.2)) ("Blue"))
  else if channel.toLower = "all" then
    .ok (chiCore pv (img.flatMap (fun p => [p.1, p.2.1, p.2.2])) ("All (RGB)"))
  else
    .error ("Channel must be red, green, blue, or all")

/-- The result of `steganalysis.multi_channel_analysis`: the Python dict
holds the three per-channel records under their channel keys together with
the `overall_verdict` and `channels_detected` entries. -/
structure MultiChannelResult where
  red : ChiResult
  green : ChiResult
  blue : ChiResult
  overall_verdict : String
  channels_detected : List String
  deriving Repr, DecidableEq

/-- `steganalysis.multi_channel_analysis`: run the chi-square test on each
colour channel (those three selector strings always take the corresponding
successful branch of `chi_square_attack`), then aggregate by comparing each
verdict against the literal string `DETECTED`. -/
def multi_channel_analysis (pv : ℚ → ℚ) (img : List (Nat × Nat × Nat)) :
    MultiChannelResult :=
  let r := chiCore pv (img.map (fun p => p.1)) ("Red")
  let g := chiCore pv (img.map (fun p => p.2.1)) ("Green")
  let b := chiCore pv (img.map (fun p => p.2.2)) ("Blue")
  let any_detected :=
    r.verdict == "DETECTED" || g.verdict == "DETECTED" || b.verdict == "DETECTED"
  { red := r
    green := g
    blue := b
    overall_verdict := if any_detected then ("DETECTED") else ("UNDETECTED")
    channels_detected :=
      (([(("red" : String), r), (("green" : String), g), (("blue" : String), b)]).filter
        (fun p => p.2.verdict == "DETECTED")).map (fun p => p.1) }

/-- Mean squared error of `steganalysis.calculate_visual_difference`:
`np.mean((orig - stego)**2)` over every channel value of the buffers. -/
def mseOf (a b : List Nat) : ℚ :=
  ((List.zipWith (fun x y => ((x : ℚ) - (y : ℚ)) ^ 2) a b).sum) / (a.length : ℚ)

/-- `np.sum(orig != stego)`: how many channel values differ. -/
def countDiff (a b : List Nat) : Nat :=
  ((a.zip b).filter (fun p => decide (p.1 ≠ p.2))).length

/-- The PSNR of `calculate_visual_difference`: `+infinity` when `MSE = 0`,
otherwise `20 * log10(255 / sqrt(MSE))`. -/
noncomputable def psnrOf (mse : ℚ) : EReal :=
  if mse = 0 then ⊤
  else (((20 : ℝ) * Real.logb 10 (255 / Real.sqrt (mse : ℝ)) : ℝ) : EReal)

/-- The quality banding of `calculate_visual_difference`. -/
noncomputable def qualityOf (psnr : EReal) : String :=
  if psnr = ⊤ then ("Identical (no changes)")
  else if (40 : EReal) < psnr then ("Excellent (imperceptible changes)")
  else if (30 : EReal) < psnr then ("Good (barely perceptible)")
  else if (20 : EReal) < psnr then ("Fair (noticeable if inspected)")
  else ("Poor (visibly different)")

/-- The metrics record of `calculate_visual_difference`. -/
structure VisualDiff where
  mse : ℚ
  psnr : EReal
  quality_rating : String
  pixels_changed : Nat
  total_pixels : Nat
  percent_pixels_changed : ℚ

/-- `steganalysis.calculate_visual_difference` on two decoded RGB buffers
with their shapes: fail on a shape mismatch, else report MSE, PSNR, the
quality band, and how many channel values changed. -/
noncomputable def calculate_visual_difference
    (height1 width1 : Nat) (a : List Nat)
    (height2 width2 : Nat) (b : List Nat) : Except String VisualDiff :=
  if height1 ≠ height2 ∨ width1 ≠ width2 then
    .error ("Images must have the same dimensions")
  else
    .ok { mse := mseOf a b
          psnr := psnrOf (mseOf a b)
          quality_rating := qualityOf (psnrOf (mseOf a b))
          pixels_changed := countDiff a b
          total_pixels := a.length
          percent_pixels_changed := ((countDiff a b : ℚ) / (a.length : ℚ)) * 100 }

/-- The record `steganalysis.calculate_epsilon_visibility` returns (the
free-text `recommendation`, pure presentation, is left out). -/
structure EpsilonVisibility where
  scale_low_epsilon : ℚ
  scale_high_epsilon : ℚ
  expected_noise_difference : ℚ
  capacity_usage_percent : ℚ
  statistically_visible : Bool
  deriving Repr, DecidableEq

/-- `steganalysis.calculate_epsilon_visibility`: Laplace scales `8/ε` at the
two (floor-clamped) epsilons, their absolute difference, capacity usage in
percent, and the two-condition visibility heuristic. -/
def calculate_epsilon_visibility (message_bits image_capacity : Nat)
    (epsilon_low epsilon_high : ℚ) : EpsilonVisibility :=
  let scale_low : ℚ := 8 / max (1 / 100) epsilon_low
  let scale_high : ℚ := 8 / max (1 / 100) epsilon_high
  let noise_difference := |scale_low - scale_high|
  let capacity_percent : ℚ := ((message_bits : ℚ) / (image_capacity : ℚ)) * 100
  { scale_low_epsilon := scale_low
    scale_high_epsilon := scale_high
    expected_noise_difference := noise_difference
    capacity_usage_percent := capacity_percent
    statistically_visible :=
      decide (5 ≤ capacity_percent) && decide (10 ≤ noise_difference) }

/-- The (row, col, channel) decomposition recomposes to the original flat
index: the loop of `embed` writes, and the loop of `extract` reads, exactly
the selected channel index. -/
theorem flatPos_eq (width channels idx : Nat) : flatPos width channels idx = idx := by
  unfold flatPos
  have hdvd : channels ∣ width * channels := Dvd.intro_left width rfl
  have h3 : idx % (width * channels) % channels = idx % channels :=
    Nat.mod_mod_of_dvd idx hdvd
  have h2 : idx % (width * channels) / channels * channels
      + idx % (width * channels) % channels = idx % (width * channels) := by
    rw [mul_comm (idx % (width * channels) / channels) channels]
    exact Nat.div_add_mod (idx % (width * channels)) channels
  have h1 : idx / (width * channels) * (width * channels) + idx % (width * channels)
      = idx := by
    rw [mul_comm (idx / (width * channels)) (width * channels)]
    exact Nat.div_add_mod idx (width * channels)
  rw [← h3] at *
  omega

theorem getD_set_self : ∀ (l : List Nat) (p v : Nat), p < l.length →
    (l.set p v).getD p 0 = v := by
  intro l
  induction l with
  | nil => intro p v h; simp at h
  | cons a t ih =>
    intro p v h
    cases p with
    | zero => rfl
    | succ q =>
      simp only [List.set, List.getD, List.getElem?_cons_succ]
      have := ih q v (by simpa using h)
      simpa [List.getD] using this

theorem getD_set_ne : ∀ (l : List Nat) (p q v : Nat), p ≠ q →
    (l.set p v).getD q 0 = l.getD q 0 := by
  intro l
  induction l with
  | nil => intro p q v _; simp [List.set]
  | cons a t ih =>
    intro p q v hpq
    cases p with
    | zero =>
      cases q with
      | zero => exact absurd rfl hpq
      | succ m => rfl
    | succ n =>
      cases q with
      | zero => rfl
      | succ m =>
        simp only [List.set, List.getD, List.getElem?_cons_succ]
        have := ih n m v (by omega)
        simpa [List.getD] using this

theorem getD_mem : ∀ (l : List Nat) (q : Nat), q < l.length → l.getD q 0 ∈ l := by
  intro l
  induction l with
  | nil => intro q h; simp at h
  | cons a t ih =>
    intro q h
    cases q with
    | zero => simp [List.getD]
    | succ m =>
      have := ih m (by simpa using h)
      simp only [List.getD, List.getElem?_cons_succ]
      right
      simpa [List.getD] using this

theorem set_oob : ∀ (l : List Nat) (p v : Nat), l.length ≤ p → l.set p v = l := by
  intro l
  induction l with
  | nil => intro p v _; rfl
  | cons a t ih =>
    intro p v h
    cases p with
    | zero => simp at h
    | succ q => simp [List.set, ih q v (by simpa using h)]

/-- LSB substitution then LSB read recovers the written bit, for 8-bit
stored values and a single-bit write. -/
theorem lsb_write_read : ∀ v : Nat, v < 256 → ∀ b : Nat, b ≤ 1 →
    (((v &&& 254) ||| b) &&& 1) = b := by decide

/-- LSB substitution leaves the upper seven bits of an 8-bit value alone. -/
theorem lsb_write_div2 : ∀ v : Nat, v < 256 → ∀ b : Nat, b ≤ 1 →
    ((v &&& 254) ||| b) / 2 = v / 2 := by decide

/-- LSB substitution keeps an 8-bit value 8-bit. -/
theorem lsb_write_lt : ∀ v : Nat, v < 256 → ∀ b : Nat, b ≤ 1 →
    ((v &&& 254) ||| b) < 256 := by decide

/-- Bit groups produced for single-byte character codes have exactly 8 bits. -/
theorem charToBits_length : ∀ c : Nat, c < 256 → (charToBits c).length = 8 := by decide

/-- Decoding a bit group recovers the single-byte character code. -/
theorem bitsVal_charToBits : ∀ c : Nat, c < 256 → bitsVal (charToBits c) = c := by decide

theorem binDigitsAux_le_one : ∀ (fuel n : Nat), ∀ b ∈ binDigitsAux fuel n, b ≤ 1 := by
  intro fuel
  induction fuel with
  | zero => intro n b hb; cases n <;> simp [binDigitsAux] at hb ⊢
  | succ f ih =>
    intro n b hb
    cases n with
    | zero => simp [binDigitsAux] at hb
    | succ m =>
      simp only [binDigitsAux, List.mem_append, List.mem_singleton] at hb
      rcases hb with hb | hb
      · exact ih _ b hb
      · omega

/-- Every bit `string_to_bits` emits is 0 or 1 (binary digits). -/
theorem string_to_bits_le_one : ∀ (msg : List Nat), ∀ b ∈ string_to_bits msg, b ≤ 1 := by
  intro msg
  induction msg with
  | nil => intro b hb; simp [string_to_bits] at hb
  | cons c t ih =>
    intro b hb
    simp only [string_to_bits, List.map_cons, List.flatten_cons, List.mem_append] at hb
    rcases hb with hb | hb
    · simp only [charToBits, List.mem_append, List.mem_replicate] at hb
      rcases hb with hb | hb
      · omega
      · unfold natToBin at hb
        split at hb
        · simp at hb; omega
        · exact binDigitsAux_le_one _ _ b hb
    · exact ih b (by simpa [string_to_bits] using hb)

theorem string_to_bits_cons (c : Nat) (t : List Nat) :
    string_to_bits (c :: t) = charToBits c ++ string_to_bits t := by
  simp [string_to_bits]

theorem bitsToStringAux_fuel : ∀ (f1 f2 : Nat) (bits : List Nat),
    bits.length ≤ f1 → bits.length ≤ f2 →
    bitsToStringAux f1 bits = bitsToStringAux f2 bits := by
  intro f1
  induction f1 with
  | zero =>
    intro f2 bits h1 _
    have : bits = [] := List.length_eq_zero.mp (Nat.le_zero.mp h1)
    subst this
    cases f2 <;> rfl
  | succ g ih =>
    intro f2 bits h1 h2
    cases bits with
    | nil => cases f2 <;> rfl
    | cons b rest =>
      cases f2 with
      | zero => simp at h2
      | succ g2 =>
        simp only [bitsToStringAux]
        congr 1
        apply ih
        · simp at h1 ⊢; omega
        · simp at h2 ⊢; omega

theorem bits_to_string_cons (b : Nat) (rest : List Nat) :
    bits_to_string (b :: rest)
      = bitsVal (b :: rest.take 7) :: bits_to_string (rest.drop 7) := by
  unfold bits_to_string
  simp only [List.length_cons, bitsToStringAux]
  congr 1
  apply bitsToStringAux_fuel
  · simp
  · simp

theorem bits_to_string_chunk (l rest : List Nat) (h : l.length = 8) :
    bits_to_string (l ++ rest) = bitsVal l :: bits_to_string rest := by
  match l, h with
  | a :: t, h =>
    have ht : t.length = 7 := by simpa using h
    rw [List.cons_append, bits_to_string_cons]
    rw [← ht, List.take_left, List.drop_left]

/-- Decoding the encoding of a message of single-byte characters gives the
message back. -/
theorem decode_encode (msg : List Nat) (h : ∀ c ∈ msg, c < 256) :
    bits_to_string (string_to_bits msg) = msg := by
  induction msg with
  | nil => rfl
  | cons c t ih =>
    rw [string_to_bits_cons,
      bits_to_string_chunk _ _ (charToBits_length c (h c (List.mem_cons_self c t))),
      bitsVal_charToBits c (h c (List.mem_cons_self c t)),
      ih (fun x hx => h x (List.mem_cons_of_mem c hx))]

/-- The decoder never fails: every input decodes to `ceil(len/8)` characters,
a trailing group shorter than 8 bits included. -/
theorem bits_to_string_length : ∀ (n : Nat) (bits : List Nat), bits.length ≤ n →
    (bits_to_string bits).length = (bits.length + 7) / 8 := by
  intro n
  induction n with
  | zero =>
    intro bits h
    have : bits = [] := List.length_eq_zero.mp (Nat.le_zero.mp h)
    subst this; rfl
  | succ m ih =>
    intro bits h
    cases bits with
    | nil => rfl
    | cons b rest =>
      rw [bits_to_string_cons]
      have hd : (rest.drop 7).length = rest.length - 7 := by simp
      have := ih (rest.drop 7) (by simp at h ⊢; omega)
      simp only [List.length_cons, this, hd]
      omega

theorem embedLoop_length (message_bits : List Nat) (decoys : Nat → Bool) (width : Nat) :
    ∀ (ps : List Nat) (i : Nat) (arr : List Nat),
    (embedLoop message_bits decoys width i arr ps).length = arr.length := by
  intro ps
  induction ps with
  | nil => intro i arr; rfl
  | cons p rest ih => intro i arr; simp [embedLoop, ih]

/-- A channel index never selected by the loop keeps its stored value. -/
theorem embedLoop_getD_not_mem (message_bits : List Nat) (decoys : Nat → Bool)
    (width : Nat) : ∀ (ps : List Nat) (i : Nat) (arr : List Nat) (q : Nat),
    q ∉ ps →
    (embedLoop message_bits decoys width i arr ps).getD q 0 = arr.getD q 0 := by
  intro ps
  induction ps with
  | nil => intro i arr q _; rfl
  | cons p rest ih =>
    intro i arr q hq
    simp only [List.mem_cons, not_or] at hq
    simp only [embedLoop]
    rw [ih _ _ q hq.2, flatPos_eq, getD_set_ne _ _ _ _ (fun h => hq.1 h.symm)]

/-- With pairwise distinct selected indices, the loop leaves at the k-th
selected slot exactly the original value with its LSB replaced by the k-th
bit (message bit below the true count, decoy bit above). -/
theorem embedLoop_getD_nodup (message_bits : List Nat) (decoys : Nat → Bool)
    (width : Nat) : ∀ (ps : List Nat) (i : Nat) (arr : List Nat)
    (k : Nat) (hk : k < ps.length),
    ps.Nodup → (∀ p ∈ ps, p < arr.length) →
    (embedLoop message_bits decoys width i arr ps).getD (ps.get ⟨k, hk⟩) 0
      = ((arr.getD (ps.get ⟨k, hk⟩) 0) &&& 254) ||| bitFor message_bits decoys (i + k) := by
  intro ps
  induction ps with
  | nil => intro i arr k hk; simp at hk
  | cons p rest ih =>
    intro i arr k hk hnd hlt
    have hp : p < arr.length := hlt p (List.mem_cons_self p rest)
    have hpnotin : p ∉ rest := (List.nodup_cons.mp hnd).1
    cases k with
    | zero =>
      show (embedLoop message_bits decoys width i arr (p :: rest)).getD p 0
        = ((arr.getD p 0) &&& 254) ||| bitFor message_bits decoys (i + 0)
      simp only [embedLoop, flatPos_eq]
      rw [embedLoop_getD_not_mem _ _ _ _ _ _ _ hpnotin]
      rw [getD_set_self _ _ _ hp, Nat.add_zero]
    | succ m =>
      have hm : m < rest.length := by simpa using hk
      show (embedLoop message_bits decoys width i arr (p :: rest)).getD
          (rest.get ⟨m, hm⟩) 0
        = ((arr.getD (rest.get ⟨m, hm⟩) 0) &&& 254)
          ||| bitFor message_bits decoys (i + (m + 1))
      simp only [embedLoop, flatPos_eq]
      have harr2 : ∀ x ∈ rest, x <
          (arr.set p ((arr.getD p 0 &&& 254) ||| bitFor message_bits decoys i)).length := by
        intro x hx
        simpa using hlt x (List.mem_cons_of_mem p hx)
      rw [ih (i + 1) _ m hm (List.nodup_cons.mp hnd).2 harr2]
      have hne : p ≠ rest.get ⟨m, hm⟩ := by
        intro hcontra
        exact hpnotin (hcontra ▸ List.get_mem rest m hm)
      rw [getD_set_ne _ _ _ _ hne]
      have hadd : i + 1 + m = i + (m + 1) := by omega
      rw [hadd]

/-- The loop only ever rewrites LSBs: for 8-bit stored values the upper
seven bits of every slot survive, selected or not. -/
theorem embedLoop_div2 (message_bits : List Nat) (decoys : Nat → Bool)
    (width : Nat) (hbits : ∀ b ∈ message_bits, b ≤ 1) :
    ∀ (ps : List Nat) (i : Nat) (arr : List Nat),
    (∀ v ∈ arr, v < 256) → ∀ q : Nat,
    (embedLoop message_bits decoys width i arr ps).getD q 0 / 2 = arr.getD q 0 / 2 := by
  intro ps
  induction ps with
  | nil => intro i arr _ q; rfl
  | cons p rest ih =>
    intro i arr harr q
    have hble : bitFor message_bits decoys i ≤ 1 := by
      unfold bitFor
      split
      · exact hbits _ (List.get_mem _ _ _)
      · cases decoys i <;> simp
    simp only [embedLoop, flatPos_eq]
    by_cases hp : p < arr.length
    · have hv : arr.getD p 0 < 256 := harr _ (getD_mem arr p hp)
      have harr2 : ∀ v ∈ arr.set p ((arr.getD p 0 &&& 254) ||| bitFor message_bits decoys i),
          v < 256 := by
        intro v hv2
        rcases List.mem_or_eq_of_mem_set hv2 with h | h
        · exact harr v h
        · subst h; exact lsb_write_lt _ hv _ hble
      rw [ih (i + 1) _ harr2 q]
      by_cases hq : p = q
      · subst hq
        rw [getD_set_self _ _ _ hp]
        exact lsb_write_div2 _ hv _ hble
      · rw [getD_set_ne _ _ _ _ hq]
    · rw [set_oob _ _ _ (by omega)]
      exact ih (i + 1) arr harr q

theorem gpi_ok (shuffle : Nat → Nat → List Nat) (h w c N seed : Nat)
    (hN : N ≤ h * w * c) :
    get_pixel_indices shuffle (h, w, c) N seed
      = .ok ((shuffle seed (h * w * c)).take N) := by
  unfold get_pixel_indices
  rw [if_neg (Nat.not_lt.mpr hN)]

theorem totalToModify_le (C : Nat) (η : ℚ) (T : Nat) : totalToModify C η T ≤ T := by
  unfold totalToModify
  rw [Int.toNat_le]
  exact min_le_right _ _

theorem le_totalToModify (C : Nat) (η : ℚ) (T : Nat) (h : C ≤ T) :
    C ≤ totalToModify C η T := by
  unfold totalToModify
  have hx : (C : Int) ≤ min (max (C : Int) ((C : Int) + truncInt η)) (T : Int) :=
    le_min (le_max_left _ _) (by exact_mod_cast h)
  rw [Int.le_toNat (le_trans (by positivity) hx)]
  exact hx

/-- The success path of `embed`: when the message fits, the result is the
loop run over the first `total_channels_to_modify` entries of the full
seeded permutation, together with the statistics record. -/
theorem embed_ok (shuffle : Nat → Nat → List Nat) (p2s : String → Nat)
    (height width : Nat) (img : List Nat) (message : List Nat)
    (password : String) (ε η : ℚ) (decoys : Nat → Bool)
    (hfit : (string_to_bits message).length ≤ height * width * 3) :
    embed shuffle p2s height width img message password ε η decoys
      = .ok (embedLoop (string_to_bits message) decoys width 0 img
            ((shuffle (p2s password) (height * width * 3)).take
              (totalToModify (string_to_bits message).length η (height * width * 3))),
          embedStats (string_to_bits message).length message.length η
            (totalToModify (string_to_bits message).length η (height * width * 3))
            ε (height * width * 3) height width) := by
  unfold embed
  rw [if_neg (Nat.not_lt.mpr hfit),
    gpi_ok _ _ _ _ _ _ (totalToModify_le _ _ _)]
  rfl

/-- C1.  Round trip: for every cover image, every message of single-byte
characters whose bit encoding fits the image, every password, every
epsilon above zero, every value of the Laplace noise sample and every draw
of decoy bits, extracting from the stego buffer produced by `embed`, with
the same password and the bit length of the message, returns the message
exactly. -/
theorem embed_extract_round_trip (shuffle : Nat → Nat → List Nat)
    (p2s : String → Nat) (height width : Nat) (img : List Nat)
    (message : List Nat) (password : String) (ε η : ℚ) (decoys : Nat → Bool)
    (hperm : (shuffle (p2s password) (height * width * 3)).Perm
      (List.range (height * width * 3)))
    (hmsg : ∀ c ∈ message, c < 256)
    (himg : img.length = height * width * 3)
    (himgv : ∀ v ∈ img, v < 256)
    (hfit : (string_to_bits message).length ≤ height * width * 3)
    (hepspos : 0 < ε) :
    (embed shuffle p2s height width img message password ε η decoys).bind
        (fun p => extract shuffle p2s height width p.1 password
          (string_to_bits message).length)
      = .ok message := by
  rw [embed_ok shuffle p2s height width img message password ε η decoys hfit]
  show extract shuffle p2s height width
    (embedLoop (string_to_bits message) decoys width 0 img
      ((shuffle (p2s password) (height * width * 3)).take
        (totalToModify (string_to_bits message).length η (height * width * 3))))
    password (string_to_bits message).length = .ok message
  unfold extract
  rw [if_neg (Nat.not_lt.mpr hfit), gpi_ok _ _ _ _ _ _ hfit]
  show Except.ok (bits_to_string _) = _
  have hsh : (shuffle (p2s password) (height * width * 3)).length
      = height * width * 3 := by
    rw [hperm.length_eq, List.length_range]
  have hshnd : (shuffle (p2s password) (height * width * 3)).Nodup :=
    hperm.nodup_iff.mpr (List.nodup_range _)
  have hshlt : ∀ x ∈ shuffle (p2s password) (height * width * 3),
      x < height * width * 3 := fun x hx => List.mem_range.mp (hperm.mem_iff.mp hx)
  have hCtot : (string_to_bits message).length
      ≤ totalToModify (string_to_bits message).length η (height * width * 3) :=
    le_totalToModify _ _ _ hfit
  have htotle : totalToModify (string_to_bits message).length η (height * width * 3)
      ≤ height * width * 3 := totalToModify_le _ _ _
  have hpfxnd : ((shuffle (p2s password) (height * width * 3)).take
      (totalToModify (string_to_bits message).length η (height * width * 3))).Nodup :=
    (List.take_sublist _ _).nodup hshnd
  have hpfxlt : ∀ p ∈ (shuffle (p2s password) (height * width * 3)).take
      (totalToModify (string_to_bits message).length η (height * width * 3)),
      p < img.length := by
    intro p hp
    rw [himg]
    exact hshlt p (List.mem_of_mem_take hp)
  have hbits : ((shuffle (p2s password) (height * width * 3)).take
        (string_to_bits message).length).map
      (fun idx =>
        (embedLoop (string_to_bits message) decoys width 0 img
          ((shuffle (p2s password) (height * width * 3)).take
            (totalToModify (string_to_bits message).length η
              (height * width * 3)))).getD (flatPos width 3 idx) 0 &&& 1)
      = string_to_bits message := by
    apply List.ext_getElem
    · simp [hsh, Nat.min_eq_left hfit]
    · intro k h1 h2
      have hklt : k < (string_to_bits message).length := h2
      have hktot : k < ((shuffle (p2s password) (height * width * 3)).take
          (totalToModify (string_to_bits message).length η
            (height * width * 3))).length := by
        simp only [List.length_take, hsh]
        omega
      rw [List.getElem_map, List.getElem_take, flatPos_eq]
      have hksh : k < (shuffle (p2s password) (height * width * 3)).length := by
        omega
      have hget : (shuffle (p2s password) (height * width * 3))[k]
          = ((shuffle (p2s password) (height * width * 3)).take
            (totalToModify (string_to_bits message).length η
              (height * width * 3))).get ⟨k, hktot⟩ := by
        rw [List.get_eq_getElem, List.getElem_take]
      rw [hget, embedLoop_getD_nodup (string_to_bits message) decoys width _ 0 img
        k hktot hpfxnd hpfxlt]
      have hv : img.getD (((shuffle (p2s password) (height * width * 3)).take
          (totalToModify (string_to_bits message).length η
            (height * width * 3))).get ⟨k, hktot⟩) 0 < 256 := by
        apply himgv
        apply getD_mem
        exact hpfxlt _ (List.get_mem _ _ _)
      have hbf : bitFor (string_to_bits message) decoys (0 + k)
          = (string_to_bits message)[k] := by
        rw [Nat.zero_add]
        unfold bitFor
        rw [dif_pos hklt]
        rw [List.get_eq_getElem]
      rw [hbf]
      exact lsb_write_read _ hv _
        (string_to_bits_le_one message _ (List.getElem_mem _))
  rw [hbits, decode_encode message hmsg]

theorem embed_extract_round_trip_witness :
    (embed (fun _ t => List.range t) (fun _ => 0) 1 3 (List.replicate 9 0) [65]
        ("pw") 1 5 (fun _ => true)).bind
      (fun p => extract (fun _ t => List.range t) (fun _ => 0) 1 3 p.1 ("pw")
        (string_to_bits [65]).length) = .ok [65] :=
  embed_extract_round_trip (fun _ t => List.range t) (fun _ => 0) 1 3
    (List.replicate 9 0) [65] ("pw") 1 5 (fun _ => true)
    (List.Perm.refl _) (by decide) (by decide) (by decide) (by decide) (by decide)

theorem extract_ok (shuffle : Nat → Nat → List Nat) (p2s : String → Nat)
    (height width : Nat) (img : List Nat) (password : String) (n : Nat)
    (hn : n ≤ height * width * 3) :
    extract shuffle p2s height width img password n
      = .ok (bits_to_string (((shuffle (p2s password) (height * width * 3)).take n).map
          (fun idx => img.getD (flatPos width 3 idx) 0 &&& 1))) := by
  unfold extract
  rw [if_neg (Nat.not_lt.mpr hn), gpi_ok _ _ _ _ _ _ hn]
  rfl

/-- C2.  Path determinism and consistency of a shorter with a longer
request: for any seed, any shape and any request lengths `N1 ≤ N2 ≤ T`,
`get_pixel_indices` is deterministic (definitional in the pure embedding),
the `N1`-request equals the first `N1` entries of the `N2`-request, and the
result is a list of `N1` distinct indices below `T`. -/
theorem pixel_path_take_consistent (shuffle : Nat → Nat → List Nat)
    (h w c seed N1 N2 : Nat)
    (hperm : (shuffle seed (h * w * c)).Perm (List.range (h * w * c)))
    (h12 : N1 ≤ N2) (h2T : N2 ≤ h * w * c) :
    get_pixel_indices shuffle (h, w, c) N1 seed
        = get_pixel_indices shuffle (h, w, c) N1 seed
      ∧ (get_pixel_indices shuffle (h, w, c) N2 seed).map (fun l => l.take N1)
        = get_pixel_indices shuffle (h, w, c) N1 seed
      ∧ (get_pixel_indices shuffle (h, w, c) N1 seed).map
          (fun l => decide (l.length = N1 ∧ l.Nodup ∧ ∀ x ∈ l, x < h * w * c))
        = .ok true := by
  have h1T : N1 ≤ h * w * c := le_trans h12 h2T
  refine ⟨rfl, ?_, ?_⟩
  · rw [gpi_ok _ _ _ _ _ _ h2T, gpi_ok _ _ _ _ _ _ h1T]
    simp [Except.map, List.take_take, Nat.min_eq_left h12]
  · rw [gpi_ok _ _ _ _ _ _ h1T]
    simp only [Except.map]
    congr 1
    rw [decide_eq_true_iff]
    have hlen : (shuffle seed (h * w * c)).length = h * w * c := by
      rw [hperm.length_eq, List.length_range]
    refine ⟨by simp [hlen, Nat.min_eq_left h1T], ?_, ?_⟩
    · exact (List.take_sublist _ _).nodup (hperm.nodup_iff.mpr (List.nodup_range _))
    · intro x hx
      exact List.mem_range.mp (hperm.mem_iff.mp (List.mem_of_mem_take hx))

theorem pixel_path_take_consistent_witness :
    (get_pixel_indices (fun _ t => List.range t) (1, 2, 3) 4 0).map
        (fun l => l.take 2)
      = get_pixel_indices (fun _ t => List.range t) (1, 2, 3) 2 0
    ∧ (get_pixel_indices (fun _ t => List.range t) (1, 2, 3) 2 0).map
        (fun l => decide (l.length = 2 ∧ l.Nodup ∧ ∀ x ∈ l, x < 1 * 2 * 3))
      = .ok true :=
  ⟨(pixel_path_take_consistent (fun _ t => List.range t) 1 2 3 0 2 4
      (List.Perm.refl _) (by decide) (by decide)).2.1,
   (pixel_path_take_consistent (fun _ t => List.range t) 1 2 3 0 2 4
      (List.Perm.refl _) (by decide) (by decide)).2.2⟩

/-- C3 counterexample: with the truncated Laplace sample at -16 on an
8-bit message, the `noisy_count` statistic is -8, strictly below the
`message_length_bits` statistic 8, so `noisy_count >= true_count` fails on
the code (`noisy_count` is recorded before the max with the true count). -/
theorem noisy_count_can_drop_below_true_count :
    (embed (fun _ t => List.range t) (fun _ => 0) 1 3 (List.replicate 9 0) [65]
        ("pw") 1 (-16) (fun _ => false)).map
      (fun p => decide ((p.2.message_length_bits : Int) ≤ p.2.noisy_count))
      = .ok false := rfl

/-- C3 (amended): for every successful embed, the `total_pixels_modified`
statistic (the count after the message-integrity floor) is at least the
`message_length_bits` statistic; the `noisy_count` statistic itself can
drop below it when the Laplace sample is negative enough. -/
theorem total_modified_ge_true_count (shuffle : Nat → Nat → List Nat)
    (p2s : String → Nat) (height width : Nat) (img : List Nat)
    (message : List Nat) (password : String) (ε η : ℚ) (decoys : Nat → Bool)
    (hfit : (string_to_bits message).length ≤ height * width * 3) :
    (embed shuffle p2s height width img message password ε η decoys).map
      (fun p => decide (p.2.message_length_bits ≤ p.2.total_pixels_modified))
      = .ok true := by
  rw [embed_ok _ _ _ _ _ _ _ _ _ _ hfit]
  simp only [Except.map, embedStats]
  congr 1
  rw [decide_eq_true_iff]
  exact le_totalToModify _ _ _ hfit

theorem total_modified_ge_true_count_witness :
    (embed (fun _ t => List.range t) (fun _ => 0) 1 3 (List.replicate 9 0) [65]
        ("pw") 1 (-16) (fun _ => true)).map
      (fun p => decide (p.2.message_length_bits ≤ p.2.total_pixels_modified))
      = .ok true :=
  total_modified_ge_true_count (fun _ t => List.range t) (fun _ => 0) 1 3
    (List.replicate 9 0) [65] ("pw") 1 (-16) (fun _ => true) (by decide)

/-- C4.  Floor-and-clip policy: every successful embed reports
`total_pixels_modified = min(max(C, C + trunc(noise)), T)` (truncation
toward zero, as Python `int()` does), and consequently
`C <= total_pixels_modified <= T`. -/
theorem total_modified_floor_clip (shuffle : Nat → Nat → List Nat)
    (p2s : String → Nat) (height width : Nat) (img : List Nat)
    (message : List Nat) (password : String) (ε η : ℚ) (decoys : Nat → Bool)
    (hfit : (string_to_bits message).length ≤ height * width * 3) :
    (embed shuffle p2s height width img message password ε η decoys).map
      (fun p => ((p.2.total_pixels_modified : Int),
        decide (p.2.message_length_bits ≤ p.2.total_pixels_modified
          ∧ p.2.total_pixels_modified ≤ height * width * 3)))
      = .ok (min (max ((string_to_bits message).length : Int)
          (((string_to_bits message).length : Int) + truncInt η))
          ((height * width * 3 : Nat) : Int), true) := by
  rw [embed_ok _ _ _ _ _ _ _ _ _ _ hfit]
  simp only [Except.map, embedStats]
  have hnn : (0 : Int) ≤ min (max ((string_to_bits message).length : Int)
      (((string_to_bits message).length : Int) + truncInt η))
      ((height * width * 3 : Nat) : Int) :=
    le_min (le_trans (by positivity) (le_max_left _ _)) (by positivity)
  congr 1
  refine Prod.ext ?_ ?_
  · show ((totalToModify (string_to_bits message).length η (height * width * 3) : Nat) : Int) = _
    unfold totalToModify
    exact Int.toNat_of_nonneg hnn
  · show decide _ = true
    rw [decide_eq_true_iff]
    exact ⟨le_totalToModify _ _ _ hfit, totalToModify_le _ _ _⟩

theorem total_modified_floor_clip_witness :
    (embed (fun _ t => List.range t) (fun _ => 0) 1 3 (List.replicate 9 0) [65]
        ("pw") 1 5 (fun _ => false)).map
      (fun p => ((p.2.total_pixels_modified : Int),
        decide (p.2.message_length_bits ≤ p.2.total_pixels_modified
          ∧ p.2.total_pixels_modified ≤ 1 * 3 * 3)))
      = .ok (min (max ((string_to_bits [65]).length : Int)
          (((string_to_bits [65]).length : Int) + truncInt 5))
          ((1 * 3 * 3 : Nat) : Int), true) :=
  total_modified_floor_clip (fun _ t => List.range t) (fun _ => 0) 1 3
    (List.replicate 9 0) [65] ("pw") 1 5 (fun _ => false) (by decide)

/-- C5.  Capacity errors are exact: embed fails, and fails with exactly the
insufficient-capacity message, precisely when the message bit count exceeds
`T = H*W*3` (a message exactly at capacity succeeds); extract fails, with
exactly its insufficient-capacity message, precisely when the requested bit
count exceeds `T`.  Both functions are pure: in the failure case they
return the error without producing any modified buffer. -/
theorem insufficient_capacity_iff (shuffle : Nat → Nat → List Nat)
    (p2s : String → Nat) (height width : Nat) (img : List Nat)
    (message : List Nat) (password : String) (ε η : ℚ) (decoys : Nat → Bool)
    (n : Nat) :
    ((embed shuffle p2s height width img message password ε η decoys
        = .error (embedCapacityMsg (string_to_bits message).length
          (height * width * 3)))
      ↔ height * width * 3 < (string_to_bits message).length)
    ∧ ((embed shuffle p2s height width img message password ε η decoys).isOk = true
      ↔ (string_to_bits message).length ≤ height * width * 3)
    ∧ ((extract shuffle p2s height width img password n
        = .error (extractCapacityMsg n (height * width * 3)))
      ↔ height * width * 3 < n)
    ∧ ((extract shuffle p2s height width img password n).isOk = true
      ↔ n ≤ height * width * 3) := by
  constructor
  · by_cases hfit : (string_to_bits message).length ≤ height * width * 3
    · rw [embed_ok _ _ _ _ _ _ _ _ _ _ hfit]
      simp [Nat.not_lt.mpr hfit]
    · unfold embed
      rw [if_pos (Nat.not_le.mp hfit)]
      simp [Nat.not_le.mp hfit]
  constructor
  · by_cases hfit : (string_to_bits message).length ≤ height * width * 3
    · rw [embed_ok _ _ _ _ _ _ _ _ _ _ hfit]
      exact iff_of_true rfl hfit
    · unfold embed
      rw [if_pos (Nat.not_le.mp hfit)]
      exact iff_of_false (fun h => Bool.false_ne_true h) hfit
  constructor
  · by_cases hn : n ≤ height * width * 3
    · rw [extract_ok _ _ _ _ _ _ _ hn]
      simp [Nat.not_lt.mpr hn]
    · unfold extract
      rw [if_pos (Nat.not_le.mp hn)]
      simp [Nat.not_le.mp hn]
  · by_cases hn : n ≤ height * width * 3
    · rw [extract_ok _ _ _ _ _ _ _ hn]
      exact iff_of_true rfl hn
    · unfold extract
      rw [if_pos (Nat.not_le.mp hn)]
      exact iff_of_false (fun h => Bool.false_ne_true h) hn

/-- C6.  Frame effect of a successful embed: the stego buffer has the same
length as the cover buffer, agrees with it at every channel index outside
the first `total_pixels_modified` entries of the seeded permutation, and
at every channel index keeps the upper seven bits of the stored 8-bit
value (only LSBs can change).  The cover buffer itself is untouched: the
loop runs on a private copy (mutation-freedom is definitional in the pure
embedding). -/
theorem embed_frame_effect (shuffle : Nat → Nat → List Nat) (p2s : String → Nat)
    (height width : Nat) (img : List Nat) (message : List Nat)
    (password : String) (ε η : ℚ) (decoys : Nat → Bool)
    (st : List Nat) (stats : EmbedStats)
    (himgv : ∀ v ∈ img, v < 256)
    (hok : embed shuffle p2s height width img message password ε η decoys
      = .ok (st, stats)) :
    st.length = img.length
    ∧ (∀ j, j ∉ (shuffle (p2s password) (height * width * 3)).take
        stats.total_pixels_modified → st.getD j 0 = img.getD j 0)
    ∧ (∀ j, st.getD j 0 / 2 = img.getD j 0 / 2) := by
  by_cases hfit : (string_to_bits message).length ≤ height * width * 3
  · rw [embed_ok _ _ _ _ _ _ _ _ _ _ hfit] at hok
    have hpair := Except.ok.inj hok
    have hst : st = embedLoop (string_to_bits message) decoys width 0 img
        ((shuffle (p2s password) (height * width * 3)).take
          (totalToModify (string_to_bits message).length η (height * width * 3))) :=
      (congrArg Prod.fst hpair).symm
    have hstats : stats = embedStats (string_to_bits message).length message.length η
        (totalToModify (string_to_bits message).length η (height * width * 3))
        ε (height * width * 3) height width :=
      (congrArg Prod.snd hpair).symm
    have htp : stats.total_pixels_modified
        = totalToModify (string_to_bits message).length η (height * width * 3) := by
      rw [hstats]; rfl
    subst hst
    refine ⟨embedLoop_length _ _ _ _ _ _, ?_, ?_⟩
    · intro j hj
      rw [htp] at hj
      exact embedLoop_getD_not_mem _ _ _ _ _ _ _ hj
    · intro j
      exact embedLoop_div2 _ _ _ (string_to_bits_le_one message) _ _ _ himgv j
  · unfold embed at hok
    rw [if_pos (Nat.not_le.mp hfit)] at hok
    exact absurd hok (by simp)

theorem embed_frame_effect_witness :
    ([0, 1, 0, 0, 0, 0, 0, 1, 0] : List Nat).getD 8 0
        = (List.replicate 9 (0 : Nat)).getD 8 0
    ∧ ([0, 1, 0, 0, 0, 0, 0, 1, 0] : List Nat).getD 1 0 / 2
        = (List.replicate 9 (0 : Nat)).getD 1 0 / 2 :=
  ⟨(embed_frame_effect (fun _ t => List.range t) (fun _ => 0) 1 3
      (List.replicate 9 0) [65] ("pw") 1 (-16) (fun _ => false)
      [0, 1, 0, 0, 0, 0, 0, 1, 0] (embedStats 8 1 (-16) 8 1 9 1 3)
      (by decide) rfl).2.1 8 (by decide),
   (embed_frame_effect (fun _ t => List.range t) (fun _ => 0) 1 3
      (List.replicate 9 0) [65] ("pw") 1 (-16) (fun _ => false)
      [0, 1, 0, 0, 0, 0, 0, 1, 0] (embedStats 8 1 (-16) 8 1 9 1 3)
      (by decide) rfl).2.2 1⟩

/-- C7 counterexample: a 1-bit input, whose length is not a multiple of 8,
raises nothing: `bits_to_string` decodes the short trailing group by its
binary value and returns the one-character message with code 1. -/
theorem bits_to_string_short_input_decodes :
    bits_to_string [1] = [1] ∧ ¬ (8 ∣ ([1] : List Nat).length) := by decide

/-- C7 (amended): `bits_to_string` never fails or enters an error state:
every bit list, of any length, decodes to `ceil(len/8)` characters, a
trailing group of fewer than 8 bits being decoded by binary value like a
full group; each full leading group of 8 decodes to the character with
that MSB-first binary value, so decoding inverts encoding on every message
of single-byte characters. -/
theorem bits_to_string_total_and_round_trip :
    (∀ bits : List Nat, (bits_to_string bits).length = (bits.length + 7) / 8)
    ∧ (∀ (l rest : List Nat), l.length = 8 →
        bits_to_string (l ++ rest) = bitsVal l :: bits_to_string rest)
    ∧ (∀ msg : List Nat, (∀ c ∈ msg, c < 256) →
        bits_to_string (string_to_bits msg) = msg) :=
  ⟨fun bits => bits_to_string_length bits.length bits le_rfl,
   fun l rest h => bits_to_string_chunk l rest h,
   fun msg h => decode_encode msg h⟩

/-- C8.  The aggregation of `multi_channel_analysis` compares each
per-channel verdict with the literal string DETECTED, but a per-channel
verdict is always one of the two distribution strings, so for every image
and every p-value function the overall verdict is UNDETECTED and the
detected-channel list is empty. -/
theorem multi_channel_always_undetected (pv : ℚ → ℚ)
    (img : List (Nat × Nat × Nat)) :
    (multi_channel_analysis pv img).overall_verdict = "UNDETECTED"
    ∧ (multi_channel_analysis pv img).channels_detected = [] := by
  have hv : ∀ (data : List Nat) (name : String),
      ((chiCore pv data name).verdict == "DETECTED") = false := by
    intro data name
    show ((if pv _ < 1 / 20 then ("NON-RANDOM LSB DISTRIBUTION")
      else ("RANDOM-LOOKING LSB DISTRIBUTION")) == "DETECTED") = false
    split <;> rfl
  unfold multi_channel_analysis
  simp only [hv, Bool.or_self, Bool.false_or, if_false, List.filter, List.map]
  constructor
  · rfl
  · simp

theorem mseOf_self (a : List Nat) : mseOf a a = 0 := by
  unfold mseOf
  have h : (List.zipWith (fun x y => ((x : ℚ) - (y : ℚ)) ^ 2) a a).sum = 0 := by
    induction a with
    | nil => rfl
    | cons x t ih => simp [List.zipWith_cons_cons, ih]
  rw [h, zero_div]

theorem countDiff_self (a : List Nat) : countDiff a a = 0 := by
  unfold countDiff
  induction a with
  | nil => rfl
  | cons x t ih => simp [List.zip_cons_cons, List.filter, ih]

/-- C9.  PSNR identity and formula: comparing a buffer with itself yields
MSE 0, PSNR +infinity, the identical-quality band, zero changed channel
values and zero percent changed; and whenever the MSE is positive the PSNR
equals `20 * log10(255 / sqrt(MSE))`. -/
theorem visual_difference_identity_and_psnr :
    (∀ (height width : Nat) (img : List Nat),
      calculate_visual_difference height width img height width img
        = .ok { mse := 0, psnr := ⊤,
                quality_rating := "Identical (no changes)",
                pixels_changed := 0, total_pixels := img.length,
                percent_pixels_changed := 0 })
    ∧ (∀ (height width : Nat) (a b : List Nat), 0 < mseOf a b →
        (calculate_visual_difference height width a height width b).map
          (fun r => r.psnr)
        = .ok (((20 : ℝ) * Real.logb 10 (255 / Real.sqrt ((mseOf a b : ℚ) : ℝ)) : ℝ)
            : EReal)) := by
  constructor
  · intro height width img
    unfold calculate_visual_difference
    rw [if_neg (by simp)]
    have hm : mseOf img img = 0 := mseOf_self img
    have hp : psnrOf (mseOf img img) = ⊤ := by rw [hm]; unfold psnrOf; rw [if_pos rfl]
    have hq : qualityOf (psnrOf (mseOf img img)) = "Identical (no changes)" := by
      rw [hp]; unfold qualityOf; rw [if_pos rfl]
    have hc : countDiff img img = 0 := countDiff_self img
    rw [hq, hp, hm, hc]
    simp
  · intro height width a b hmse
    unfold calculate_visual_difference
    rw [if_neg (by simp)]
    simp only [Except.map]
    congr 1
    unfold psnrOf
    rw [if_neg (ne_of_gt hmse)]

theorem visual_difference_identity_and_psnr_witness :
    calculate_visual_difference 1 1 [7, 7, 7] 1 1 [7, 7, 7]
        = .ok { mse := 0, psnr := ⊤,
                quality_rating := "Identical (no changes)",
                pixels_changed := 0, total_pixels := 3,
                percent_pixels_changed := 0 }
    ∧ (calculate_visual_difference 1 1 [4, 4, 4] 1 1 [5, 5, 5]).map
        (fun r => r.psnr)
      = .ok (((20 : ℝ) * Real.logb 10 (255 / Real.sqrt ((mseOf [4, 4, 4] [5, 5, 5] : ℚ) : ℝ)) : ℝ)
          : EReal) :=
  ⟨visual_difference_identity_and_psnr.1 1 1 [7, 7, 7],
   visual_difference_identity_and_psnr.2 1 1 [4, 4, 4] [5, 5, 5]
     (by norm_num [mseOf, List.zipWith_cons_cons])⟩

/-- C10.  The visibility heuristic flags the epsilon effect as
statistically visible exactly when capacity usage is at least 5 percent
and the absolute difference of the two Laplace scales is at least 10
bits; whenever either condition fails the flag is false. -/
theorem epsilon_visibility_iff (message_bits image_capacity : Nat)
    (epsilon_low epsilon_high : ℚ) :
    ((calculate_epsilon_visibility message_bits image_capacity epsilon_low
        epsilon_high).statistically_visible = true)
      ↔ (5 ≤ ((message_bits : ℚ) / (image_capacity : ℚ)) * 100
        ∧ 10 ≤ |8 / max (1 / 100) epsilon_low - 8 / max (1 / 100) epsilon_high|) := by
  unfold calculate_epsilon_visibility
  simp [Bool.and_eq_true, decide_eq_true_iff]
